import Mathlib

/-!
Verification of the `harvester` declarative field engine
(`src/harvester/models.py`, `src/harvester/utils.py`).

Shallow embedding conventions:
* Python strings are `List Char` (and `String` for field names / paths).
* Python `None` is `Option.none`; a raised exception is `Except.error`.
* Machine floats are modelled as exact decimal rationals (`ℚ`): the claims
  under study are about the string-transformation pipeline and about
  presence/absence of a parse error, not about IEEE rounding.
* The regex `start(.*?)end` built by `Field.__init__` is embedded for
  literal (metacharacter-free) delimiter patterns, which is the shape all
  claims under study use; `re.findall` semantics (leftmost, non-greedy
  body, non-overlapping continuation, one-step advance on empty matches,
  `.` excluding newlines unless DOTALL) are reproduced directly.
-/

/-- The distinct `ValueError` situations raised inside field coercion
(`IntegerField.process` / `FloatField.process`).  In Python all are
`ValueError`; we keep them apart structurally. -/
inductive PErr where
  | doubleDecimalMark : PErr
  | floatParse : PErr
  | intParse : PErr
deriving DecidableEq, Repr

/-- Python `str.strip()` whitespace set (ASCII part). -/
def pyIsSpace (c : Char) : Bool :=
  c = ' ' || c = '\t' || c = '\n' || c = '\x0d' || c = '\x0c' || c = '\x0b'

/-- Python `str.strip()`: drop leading and trailing whitespace. -/
def pyStrip (cs : List Char) : List Char :=
  ((cs.dropWhile pyIsSpace).reverse.dropWhile pyIsSpace).reverse

/-- Numeric value of a decimal digit character. -/
def digitVal (c : Char) : Nat := c.toNat - '0'.toNat

/-- Value of a list of decimal digit characters (most significant first). -/
def decVal (ds : List Char) : Nat := ds.foldl (fun a c => 10 * a + digitVal c) 0

/-- Consume an optional leading sign, returning the sign and the rest. -/
def parseSign : List Char → Int × List Char
  | '+' :: t => (1, t)
  | '-' :: t => (-1, t)
  | t => (1, t)

/-- Split a float literal at the exponent marker `e`/`E`, if any. -/
def splitExp (cs : List Char) : List Char × Option (List Char) :=
  let m := cs.takeWhile (fun c => !(c = 'e' || c = 'E'))
  if m.length < cs.length then (m, some (cs.drop (m.length + 1))) else (cs, none)

/-- Parse the exponent part of a float literal: optional sign, digits. -/
def parseExpPart (cs : List Char) : Option Int :=
  let (s, cs1) := parseSign cs
  if !cs1.isEmpty && cs1.all Char.isDigit then some (s * (decVal cs1 : Int)) else none

/-- Python `float(str)` on finite decimal literals, as an exact rational.
`inf`/`nan` literals and digit-grouping underscores are not modelled (no
claim exercises them).  Returns `none` where Python raises `ValueError`. -/
def pyFloat (cs0 : List Char) : Option ℚ :=
  let cs := pyStrip cs0
  let (sgn, cs1) := parseSign cs
  let (mant, expPart) := splitExp cs1
  let ip := mant.takeWhile (fun c => c ≠ '.')
  let fp := (mant.drop ip.length).drop 1
  if ip.all Char.isDigit && fp.all Char.isDigit && (!ip.isEmpty || !fp.isEmpty) then
    match expPart with
    | none =>
        some (((sgn * ((decVal ip * 10 ^ fp.length + decVal fp) : Int) : Int) : ℚ)
          * (10 : ℚ) ^ (-(fp.length : Int)))
    | some ec =>
        (parseExpPart ec).map (fun e =>
          ((sgn * ((decVal ip * 10 ^ fp.length + decVal fp) : Int) : Int) : ℚ)
            * (10 : ℚ) ^ (e - (fp.length : Int)))
  else none

/-- Python `int(str)` (base 10): optional surrounding whitespace, optional
sign, decimal digits.  Digit-grouping underscores are not modelled.
Returns `none` where Python raises `ValueError`. -/
def pyInt (cs0 : List Char) : Option Int :=
  let cs := pyStrip cs0
  let (sgn, cs1) := parseSign cs
  if !cs1.isEmpty && cs1.all Char.isDigit then some (sgn * (decVal cs1 : Int)) else none

namespace IntegerField

/-- `IntegerField.process`: on a non-empty span, strip every configured
thousands marker, then parse `int(value.replace(',', '').replace('.', ''))`;
an empty span yields `None`.  Character removal by repeated `str.replace`
is embedded as a single filter. -/
def process (thousandsMarks : List Char) (v : List Char) : Except PErr (Option Int) :=
  if v = [] then .ok none
  else
    let v1 := v.filter (fun c => !(thousandsMarks.contains c))
    let v2 := v1.filter (fun c => !(c = ',' || c = '.'))
    match pyInt v2 with
    | some n => .ok (some n)
    | none => .error .intParse

end IntegerField

namespace FloatField

/-- The thousands marker derived from the decimal mark in
`FloatField.__init__`: `',' if decimal_mark == '.' else '.'`. -/
def thousandsFor (dm : Char) : Char := if dm = '.' then ',' else '.'

/-- `FloatField.process`.  The fresh `uuid4` sentinel that temporarily
replaces the decimal mark is embedded by tagging: `none` stands for an
occurrence of the sentinel (a uuid string contains neither `.` nor `,`,
and is assumed absent from the input, which is what "unique sentinel"
means in the source). -/
def process (dm : Char) (v : List Char) : Except PErr ℚ :=
  let tm := thousandsFor dm
  if 1 < v.count dm then .error .doubleDecimalMark
  else
    let tagged : List (Option Char) := (pyStrip v).map (fun c => if c = dm then none else some c)
    let untagged := (tagged.filter (fun t => t ≠ some tm)).map (fun t => t.getD '.')
    match pyFloat untagged with
    | some q => .ok q
    | none => .error .floatParse

end FloatField

/-! ### The base extraction step (`Field.__call__`)

`Field.__init__` builds the pattern `'{0}(.*?){1}'.format(start, end)` and
`Field.__call__` runs `re.findall` over the document content with
`re.DOTALL | re.MULTILINE` when `skip_new_lines` is set, else
`re.MULTILINE`.  For literal delimiters, `MULTILINE` is irrelevant
(it only changes `^`/`$`), and `DOTALL` decides whether the `.*?` body
may cross newlines.  `findall` returns the single capture group (the
body), scanning leftmost, taking the shortest body at each start, and
resuming after the previous match (advancing one position after an
empty match). -/

/-- Whether a body of the non-greedy capture is acceptable: any chars
under DOTALL, no newline otherwise. -/
def okBody (dotAll : Bool) (body : List Char) : Bool :=
  dotAll || body.all (fun c => c ≠ '\n')

/-- Shortest acceptable body length for `(.*?)U` against `t`:
the least `b` with `U` a prefix of `t.drop b` and the skipped chars
allowed by the flags. -/
def bodySearch (U : List Char) (dotAll : Bool) : List Char → Option Nat
  | [] => if U.isPrefixOf ([] : List Char) then some 0 else none
  | c :: t =>
      if U.isPrefixOf (c :: t) then some 0
      else if !dotAll && c = '\n' then none
      else (bodySearch U dotAll t).map (· + 1)

/-- Try to match `L(.*?)U` starting exactly at position `p` of `s`,
returning the body length of the shortest match. -/
def matchAt (L U : List Char) (dotAll : Bool) (s : List Char) (p : Nat) : Option Nat :=
  if L.isPrefixOf (s.drop p) then bodySearch U dotAll (s.drop (p + L.length)) else none

/-- Scan positions `i, i+1, ...` (up to `s.length`) for the leftmost
match; fuel-indexed so it computes by `rfl`. -/
def firstMatchFuel (L U : List Char) (dotAll : Bool) (s : List Char) :
    Nat → Nat → Option (Nat × Nat)
  | 0, _ => none
  | fuel + 1, i =>
      if i ≤ s.length then
        match matchAt L U dotAll s i with
        | some b => some (i, b)
        | none => firstMatchFuel L U dotAll s fuel (i + 1)
      else none

/-- Leftmost match of `L(.*?)U` at a position `≥ i`. -/
def firstMatchFrom (L U : List Char) (dotAll : Bool) (s : List Char) (i : Nat) :
    Option (Nat × Nat) :=
  firstMatchFuel L U dotAll s (s.length + 1 - i) i

/-- After a match at `p` with body length `b`, `re.findall` resumes at the
match end, advancing one position if the match was empty. -/
def nextScanPos (L U : List Char) (p b : Nat) : Nat :=
  max (p + L.length + b + U.length) (p + 1)

/-- All spans `(start, bodyLength)` found by `re.findall`, in document
order; fuel-indexed so it computes by `rfl`. -/
def findAllFuel (L U : List Char) (dotAll : Bool) (s : List Char) :
    Nat → Nat → List (Nat × Nat)
  | 0, _ => []
  | fuel + 1, i =>
      match firstMatchFrom L U dotAll s i with
      | none => []
      | some (p, b) => (p, b) :: findAllFuel L U dotAll s fuel (nextScanPos L U p b)

/-- The spans of all non-overlapping matches of `L(.*?)U` in `s`. -/
def findAllSpans (L U : List Char) (dotAll : Bool) (s : List Char) : List (Nat × Nat) :=
  findAllFuel L U dotAll s (s.length + 2) 0

/-- The captured body of a span. -/
def bodyAt (L : List Char) (s : List Char) (pb : Nat × Nat) : List Char :=
  (s.drop (pb.1 + L.length)).take pb.2

/-- `re.findall(start + '(.*?)' + end, content, flags)`: the list of
captured bodies. -/
def findAllBodies (L U : List Char) (dotAll : Bool) (s : List Char) : List (List Char) :=
  (findAllSpans L U dotAll s).map (bodyAt L s)

/-- A valid match of `L(.*?)U` at start `p` with body length `b`. -/
def ValidMatchAt (L U : List Char) (dotAll : Bool) (s : List Char) (p b : Nat) : Prop :=
  p + L.length + b ≤ s.length ∧
  L.isPrefixOf (s.drop p) = true ∧
  U.isPrefixOf (s.drop (p + L.length + b)) = true ∧
  okBody dotAll ((s.drop (p + L.length)).take b) = true

/-- Declarative contract of `re.findall` for `L(.*?)U`: the span list
contains, in document order, the leftmost matches, each with the shortest
(non-greedy) body at its start, each starting no earlier than the end of
the previous match, with no match skipped, and it is empty exactly when no
match exists at all. -/
inductive MatchChain (L U : List Char) (dotAll : Bool) (s : List Char) :
    Nat → List (Nat × Nat) → Prop where
  | nil (i : Nat) (hnone : ∀ p b, i ≤ p → ¬ ValidMatchAt L U dotAll s p b) :
      MatchChain L U dotAll s i []
  | cons (i p b : Nat) (rest : List (Nat × Nat))
      (hip : i ≤ p)
      (hv : ValidMatchAt L U dotAll s p b)
      (hshort : ∀ b', b' < b → ¬ ValidMatchAt L U dotAll s p b')
      (hleft : ∀ q b', i ≤ q → q < p → ¬ ValidMatchAt L U dotAll s q b')
      (hrest : MatchChain L U dotAll s (nextScanPos L U p b) rest) :
      MatchChain L U dotAll s i ((p, b) :: rest)

/-! ### `Field.__call__` -/

/-- The value `Field.__call__` leaves on the model: a single optional
value or a list, depending on `as_list`. -/
inductive FieldOut (V : Type) where
  | single : Option V → FieldOut V
  | many : List V → FieldOut V
deriving DecidableEq, Repr

/-- The user post-processors (`mods`) applied in declared order. -/
def applyMods {V : Type} (mods : List (V → V)) (v : V) : V :=
  mods.foldl (fun acc m => m acc) v

/-- `Field.__call__`: extract all bodies; if none, return `[]`/`None`
according to `as_list`; otherwise `process` each kept element (all of
them, or just the first), apply the modifiers, and collect.  A coercion
exception propagates. -/
def fieldCall {V : Type} (asList : Bool) (L U : List Char) (dotAll : Bool)
    (process : List Char → Except PErr V) (mods : List (V → V))
    (content : List Char) : Except PErr (FieldOut V) :=
  let elements := findAllBodies L U dotAll content
  if elements.isEmpty then .ok (if asList then .many [] else .single none)
  else do
    let chosen := if asList then elements else elements.take 1
    let results ← chosen.mapM (fun e => (process e).map (applyMods mods))
    pure (if asList then .many results else .single results.head?)

/-! ### Dependency resolver (`Model.__extract`)

The resolver is generic in the field variant: a field is its declared
dependency names plus its evaluation against the model (in the source,
`fields[field](self)` — a function of the content and of the
already-resolved sibling values reachable through `getattr`). -/

/-- One declared field, as `Model.__extract` sees it. -/
structure RField (V : Type) where
  deps : List String
  run : (String → Option V) → V

/-- Resolved values as `getattr` exposes them after `setattr`. -/
def lookupEnv {V : Type} (env : List (String × V)) (n : String) : Option V :=
  (env.find? (fun p => p.1 == n)).map (fun p => p.2)

/-- One full scan of the inner `while i < num_fields_remaining` loop:
each remaining field (in queue order) gets its pending dependencies
filtered against the fields resolved so far; if none remain it is
evaluated at once and appended to `fields_ok`, otherwise it is re-queued
with the filtered list. -/
def scanPass {V : Type} :
    List (String × RField V × List String) → List String → List (String × V) →
    List (String × RField V × List String) × List String × List (String × V)
  | [], ok, env => ([], ok, env)
  | (n, f, pend) :: rest, ok, env =>
      let pend' := pend.filter (fun d => !(ok.contains d))
      if pend'.isEmpty then
        scanPass rest (ok ++ [n]) (env ++ [(n, f.run (lookupEnv env))])
      else
        let r := scanPass rest ok env
        ((n, f, pend') :: r.1, r.2.1, r.2.2)

/-- The outer `while fields_remaining` loop: run a scan; if its size did
not change, raise `CircularDependencyError(fields_remaining)` (the error
carries the names of the still-remaining fields); else continue.  The
fuel is only a structural-termination device: each productive scan
strictly shrinks the queue, so `fuel = length` never runs out (the
`fuel = 0` fallback mirrors the stall error and is unreachable). -/
def extractGo {V : Type} :
    Nat → List (String × RField V × List String) → List String → List (String × V) →
    Except (List String) (List String × List (String × V))
  | 0, remaining, ok, env =>
      if remaining.isEmpty then .ok (ok, env) else .error (remaining.map (fun e => e.1))
  | fuel + 1, remaining, ok, env =>
      match remaining with
      | [] => .ok (ok, env)
      | _ :: _ =>
          let r := scanPass remaining ok env
          if r.1.length = remaining.length then .error (r.1.map (fun e => e.1))
          else extractGo fuel r.1 r.2.1 r.2.2

/-- `dir(self)` returns attribute names sorted alphabetically, and the
`fields` / `dependencies` dict comprehensions preserve that order, so the
initial queue is the declared fields sorted by name. -/
def gatherFields {V : Type} (decls : List (String × RField V)) : List (String × RField V) :=
  List.insertionSort (fun a b => a.1 ≤ b.1) decls

/-- `Model.__extract`: on success, the resolution order and the resolved
values; on a stall, `CircularDependencyError` naming the remaining
fields. -/
def modelExtract {V : Type} (decls : List (String × RField V)) :
    Except (List String) (List String × List (String × V)) :=
  let remaining := (gatherFields decls).map (fun p => (p.1, p.2, p.2.deps))
  extractGo remaining.length remaining [] []

/-! ### `Model.__init__` content acquisition -/

/-- What the constructor does about content: raise `ValueError`, keep the
literal content (with the url stored as metadata), or fetch the url. -/
inductive InitOutcome where
  | err : InitOutcome
  | literal : String → Option String → InitOutcome
  | fetch : String → InitOutcome
deriving DecidableEq, Repr

/-- Python truthiness of an optional string: `None` and `''` are falsy. -/
def optTruthy : Option String → Bool
  | none => false
  | some s => !(s == "")

namespace Model

/-- The content-source decision in `Model.__init__`:
`if not url and not content: raise ValueError(...)` followed by
`self.__content = content or self.__get_content()`. -/
def initContent (url content : Option String) : InitOutcome :=
  if !optTruthy url && !optTruthy content then .err
  else if optTruthy content then .literal (content.getD "") url
  else .fetch (url.getD "")

end Model

/-! ### `is_url` (`src/harvester/utils.py`) and `ModelField.process`

`is_url` is the anchored, case-insensitive regex
`^(?:http|ftp)s?://(domain|localhost|ipv4|ipv6)(?::\d+)?(?:/?|[/?]\S+)$`.
It is embedded as a structured recognizer: the input is lowercased
(every class in the pattern is case-insensitive), `$` may sit before one
final newline, and since none of the host classes can contain `/` or `?`
the path starts at the first such character. -/

/-- `[A-Z0-9]` under IGNORECASE (ASCII). -/
def isAlphaNumCh (c : Char) : Bool := c.isAlpha || c.isDigit

/-- `[A-Z0-9-]` under IGNORECASE. -/
def isLabelChar (c : Char) : Bool := isAlphaNumCh c || c = '-'

/-- One dotted-host label: `[A-Z0-9](?:[A-Z0-9-]{0,61}[A-Z0-9])?`. -/
def validLabel (l : List Char) : Bool :=
  match l with
  | [] => false
  | [c] => isAlphaNumCh c
  | c :: rest =>
      isAlphaNumCh c && rest.length ≤ 62 && rest.dropLast.all isLabelChar &&
        isAlphaNumCh (rest.getLastD ' ')

/-- The final host component: `[A-Z]{2,6}|[A-Z0-9-]{2,}` (the optional
trailing dot is stripped by the caller). -/
def validTld (t : List Char) : Bool :=
  (2 ≤ t.length && t.length ≤ 6 && t.all Char.isAlpha) ||
    (2 ≤ t.length && t.all isLabelChar)

/-- Dotted-domain host `(?:label\.)+tld\.?`. -/
def validDomain (h : List Char) : Bool :=
  let segs := h.splitOn '.'
  let segs := if segs.getLast? = some [] then segs.dropLast else segs
  match segs with
  | [] => false
  | [_] => false
  | _ => segs.dropLast.all validLabel && validTld (segs.getLastD [])

/-- `\d{1,3}\.\d{1,3}\.\d{1,3}\.\d{1,3}`. -/
def validIpv4 (h : List Char) : Bool :=
  let segs := h.splitOn '.'
  segs.length = 4 &&
    segs.all (fun g => 1 ≤ g.length && g.length ≤ 3 && g.all Char.isDigit)

/-- `[A-F0-9]` under IGNORECASE. -/
def isHexCh (c : Char) : Bool := c.isDigit || ('a' ≤ c && c ≤ 'f')

/-- `\[?[A-F0-9]*:[A-F0-9:]+\]?` followed by the optional `(?::\d+)?`
(on lowercased input).  The greedy runs are forced: neither class
contains `[`, `]`, and a shorter `[A-F0-9:]+` run cannot expose a `]`. -/
def validIpv6Port (hp : List Char) : Bool :=
  let core := match hp with
    | '[' :: t => t
    | t => t
  let r1 := core.dropWhile isHexCh
  match r1 with
  | ':' :: r2 =>
      let run := r2.takeWhile (fun c => isHexCh c || c = ':')
      if run.isEmpty then false
      else
        let t := r2.drop run.length
        t.isEmpty || t = [']'] ||
          (match t with
           | ']' :: ':' :: ds => !ds.isEmpty && ds.all Char.isDigit
           | _ => false)
  | _ => false

/-- Host plus optional `:port` (on lowercased input).  The non-ipv6 host
alternatives contain no `:`, so any port separator is the first `:`. -/
def validHostPort (hp : List Char) : Bool :=
  let bare := fun (h : List Char) =>
    validDomain h || h = ("localhost".data) || validIpv4 h
  if bare hp then true
  else
    let h := hp.takeWhile (fun c => c ≠ ':')
    let rest := hp.drop h.length
    (match rest with
     | ':' :: ds => (!ds.isEmpty && ds.all Char.isDigit) && bare h
     | _ => false) || validIpv6Port hp

/-- The trailing `(?:/?|[/?]\S+)$` alternatives. -/
def validPath (p : List Char) : Bool :=
  match p with
  | [] => true
  | [c] => c = '/'
  | c :: rest => (c = '/' || c = '?') && rest.all (fun d => !pyIsSpace d)

/-- The scheme `(?:http|ftp)s?://`, case-insensitively (input already
lowercased). -/
def stripScheme (cs : List Char) : Option (List Char) :=
  if ("https://".data).isPrefixOf cs then some (cs.drop 8)
  else if ("http://".data).isPrefixOf cs then some (cs.drop 7)
  else if ("ftps://".data).isPrefixOf cs then some (cs.drop 7)
  else if ("ftp://".data).isPrefixOf cs then some (cs.drop 6)
  else none

/-- `is_url` from `harvester/utils.py`. -/
def isUrl (s : String) : Bool :=
  let cs0 := s.data.map Char.toLower
  let cs := match cs0.getLast? with
    | some c => if c = '\n' then cs0.dropLast else cs0
    | none => cs0
  match stripScheme cs with
  | none => false
  | some r =>
      let hostPort := r.takeWhile (fun c => !(c = '/' || c = '?'))
      let path := r.drop hostPort.length
      validHostPort hostPort && validPath path

/-- The request configuration a `Model` carries and hands to children
(the `params` dict of `ModelField.process`). -/
structure ReqConfig where
  proxies : List String
  disguise : Bool
  waitAbout : Option Nat
  enableCache : Bool
  headers : List (String × String)
  cookies : Option String
  deepEncodingDiscovery : Bool
deriving DecidableEq, Repr

/-- A nested-`Model` construction: the arguments `ModelField.process`
passes to `self.__cls(...)`. -/
structure ChildCall where
  content : Option String
  url : Option String
  cfg : ReqConfig
deriving DecidableEq, Repr

namespace ModelField

/-- `ModelField.process`: a falsy (empty) span yields `None`; with
`ignore_url_process` the span is re-parsed as literal content; a span
that is a url is fetched; a site-root-relative span is resolved against
the parent's base url and retried; anything else is literal content.
Every constructed child receives the parent's `params` unchanged. -/
def process (cfg : ReqConfig) (parentUrl : Option String) (baseUrl : String)
    (ignoreUrlProcess : Bool) (value : String) : Option ChildCall :=
  if value = "" then none
  else if ignoreUrlProcess then some ⟨some value, parentUrl, cfg⟩
  else if isUrl value then some ⟨none, some value, cfg⟩
  else if value.data.head? = some '/' ∧ isUrl (baseUrl ++ value) then
    some ⟨none, some (baseUrl ++ value), cfg⟩
  else some ⟨some value, parentUrl, cfg⟩

end ModelField

/-! ### `FileField` destination paths -/

/-- Decimal digits of `n`, most significant first (`'{}'.format(i)`). -/
def natReprAux : Nat → Nat → List Char
  | 0, _ => []
  | fuel + 1, n =>
      if n < 10 then [Nat.digitChar n]
      else natReprAux fuel (n / 10) ++ [Nat.digitChar (n % 10)]

/-- Python `'{}'.format(n)` for a natural number. -/
def natRepr (n : Nat) : String := String.mk (natReprAux (n + 1) n)

namespace FileField

/-- Index of the last `.` in a list, if any. -/
def rfindDot (cs : List Char) : Option Nat :=
  (cs.reverse.findIdx? (fun c => c = '.')).map (fun k => cs.length - 1 - k)

/-- `os.path.splitext` on a path component without separators: split at
the last dot, provided some earlier character is not a dot. -/
def splitext (p : List Char) : List Char × List Char :=
  match rfindDot p with
  | none => (p, [])
  | some k => if (p.take k).any (fun c => c ≠ '.') then (p.take k, p.drop k) else (p, [])

/-- `file_url.split('/')[-1]`. -/
def lastSegment (cs : List Char) : List Char := (cs.splitOn '/').getLastD []

/-- `os.path.join(base_path, name)` for a relative `name`. -/
def joinPath (basePath name : String) : String := basePath ++ "/" ++ name

/-- `'{}-{}{}'.format(filename_base, i, filename_extension)` joined under
the destination directory. -/
def mkCand (basePath stem ext : String) (i : Nat) : String :=
  joinPath basePath (stem ++ "-" ++ natRepr i ++ ext)

/-- The `while os.path.exists(file_path)` suffix search: the first index
from `i` whose candidate is free.  Fuel is a termination device; with
`fuel > existing.length` a free candidate is always reached. -/
def firstFree (existing : List String) (mk : Nat → String) : Nat → Nat → Nat
  | 0, i => i
  | fuel + 1, i => if existing.contains (mk i) then firstFree existing mk fuel (i + 1) else i

/-- `FileField.get_file_path`: the last path segment of `file_url` is
split into stem and extension; on a collision an incrementing `-i` suffix
is inserted until the name is free.  The filesystem is the `existing`
set of paths. -/
def get_file_path (existing : List String) (basePath : String) (fileUrl : String) : String :=
  let lastSeg := lastSegment fileUrl.data
  let st := splitext lastSeg
  let stem := String.mk st.1
  let ext := String.mk st.2
  let cand := joinPath basePath (stem ++ ext)
  if existing.contains cand then
    mkCand basePath stem ext
      (firstFree existing (mkCand basePath stem ext) (existing.length + 1) 1)
  else cand

/-- The destination path chosen by `FileField.process`: the span is
stripped, protocol-relative spans get an `http:` scheme, the filename is
the `Content-Disposition` one when the response carries it and otherwise
the (fixed-up) span itself, and `get_file_path` resolves collisions. -/
def destPath (cdFilename : Option String) (value : String)
    (existing : List String) (basePath : String) : String :=
  let v0 := String.mk (pyStrip value.data)
  let v := if v0.data.take 2 = ['/', '/'] then "http:" ++ v0 else v0
  let filename := cdFilename.getD v
  get_file_path existing basePath filename

end FileField

deriving instance DecidableEq for Except

/-- Key order used by `gatherFields` is total. -/
instance {beta : Type _} : IsTotal (String × beta) (fun a b => a.1 ≤ b.1) :=
  ⟨fun a b => le_total a.1 b.1⟩

/-- Key order used by `gatherFields` is transitive. -/
instance {beta : Type _} : IsTrans (String × beta) (fun a b => a.1 ≤ b.1) :=
  ⟨fun _ _ _ h1 h2 => le_trans h1 h2⟩

/-! ### Helper lemmas -/

theorem mapM_loop_except_ok {α β : Type} (g : α → β) :
    ∀ (xs : List α) (acc : List β),
      List.mapM.loop (fun e => (Except.ok (g e) : Except PErr β)) xs acc
        = Except.ok (acc.reverse ++ xs.map g)
  | [], acc => by
      show Except.ok acc.reverse = Except.ok (acc.reverse ++ ([] : List α).map g)
      simp
  | x :: xs, acc => by
      show List.mapM.loop (fun e => (Except.ok (g e) : Except PErr β)) xs (g x :: acc)
        = Except.ok (acc.reverse ++ (x :: xs).map g)
      rw [mapM_loop_except_ok g xs (g x :: acc)]
      simp

theorem mapM_except_ok {α β : Type} (g : α → β) (xs : List α) :
    (xs.mapM (fun e => (Except.ok (g e) : Except PErr β))) = Except.ok (xs.map g) := by
  simp [List.mapM, mapM_loop_except_ok]

theorem applyMods_nil {V : Type} (v : V) : applyMods [] v = v := rfl

theorem fieldCall_raw_many (L U : List Char) (dotAll : Bool) (s : List Char) :
    fieldCall true L U dotAll (fun e => (Except.ok e : Except PErr (List Char))) [] s
      = .ok (.many (findAllBodies L U dotAll s)) := by
  unfold fieldCall
  rcases h : findAllBodies L U dotAll s with _ | ⟨e, es⟩
  · simp
  · have hm : ((e :: es).mapM (fun e =>
        (Except.ok e : Except PErr (List Char)).map (applyMods []))) = .ok (e :: es) := by
      have h2 := mapM_except_ok (fun x : List Char => x) (e :: es)
      simpa [Except.map, applyMods] using h2
    simp only [List.isEmpty_cons, Bool.false_eq_true, if_false, if_true, bind_pure_comp]
    rw [hm]
    simp

theorem fieldCall_raw_single (L U : List Char) (dotAll : Bool) (s : List Char) :
    fieldCall false L U dotAll (fun e => (Except.ok e : Except PErr (List Char))) [] s
      = .ok (.single (findAllBodies L U dotAll s).head?) := by
  unfold fieldCall
  rcases h : findAllBodies L U dotAll s with _ | ⟨e, es⟩
  · simp
  · have hm : (([e]).mapM (fun e =>
        (Except.ok e : Except PErr (List Char)).map (applyMods []))) = .ok [e] := by
      have h2 := mapM_except_ok (fun x : List Char => x) [e]
      simpa [Except.map, applyMods] using h2
    simp only [List.isEmpty_cons, Bool.false_eq_true, if_false, List.take_succ_cons,
      List.take_zero, bind_pure_comp]
    rw [hm]
    simp

/-! ### Claims C4 and C10: `Model.__init__` content acquisition -/

/-- C4 counterexample: the constructor accepts literal content and an
address together — it keeps the content, stores the url as metadata and
raises nothing, contradicting the claim that supplying both raises a
configuration error. -/
theorem c4_both_supplied_accepted :
    Model.initContent (some "http://e.com") (some "x")
      = .literal "x" (some "http://e.com")
    ∧ Model.initContent (some "http://e.com") (some "x") ≠ .err := by
  exact ⟨rfl, by decide⟩

/-- C4 (amended): the constructor raises the missing-input `ValueError`
exactly when neither a truthy url nor truthy content is supplied (raised
immediately, never retried); supplying both is accepted, the literal
content is used and no fetch happens. -/
theorem c4_missing_input_error (url content : Option String) :
    (Model.initContent url content = .err
      ↔ (optTruthy url = false ∧ optTruthy content = false))
    ∧ (optTruthy content = true →
        Model.initContent url content = .literal (content.getD "") url) := by
  constructor
  · cases hu : optTruthy url <;> cases hc : optTruthy content <;>
      simp [Model.initContent, hu, hc]
  · intro hc
    cases hu : optTruthy url <;> simp [Model.initContent, hu, hc]

/-- Witness for C4 (amended) at concrete inputs. -/
theorem c4_missing_input_error_witness :
    Model.initContent (some "http://e.com") (some "x")
      = .literal "x" (some "http://e.com") :=
  (c4_missing_input_error (some "http://e.com") (some "x")).2 (by decide)

/-- C10: the constructor tests the content argument by truthiness, so an
empty string counts as no content: with no url it raises the
missing-input error, and with a url it triggers the network fetch even
though literal content was passed. -/
theorem c10_empty_string_content_is_falsy :
    Model.initContent none (some "") = .err
    ∧ (∀ u : String, u ≠ "" →
        Model.initContent (some u) (some "") = .fetch u) := by
  refine ⟨by decide, fun u hu => ?_⟩
  simp [Model.initContent, optTruthy, hu]

/-- Witness for C10 at a concrete address. -/
theorem c10_empty_string_content_is_falsy_witness :
    Model.initContent (some "http://e.com") (some "") = .fetch "http://e.com" :=
  c10_empty_string_content_is_falsy.2 "http://e.com" (by decide)

/-! ### Claim C2: undeclared dependency names -/

/-- C2 (code evidence): a field whose dependency names no declared field
never becomes resolvable, so the very first scan makes no progress and
`Model.__extract` raises `CircularDependencyError(['a'])` — not the
distinct `FieldNotFoundError` that the constructor's docstring and the
test suite promise (that exception class is defined but never raised). -/
theorem c2_missing_dep_raises_cycle_error :
    modelExtract [("a", (⟨["b"], fun _ => (0 : Nat)⟩ : RField Nat))]
      = .error ["a"] := rfl

/-! ### Claim C6: empty captured spans in numeric fields -/

/-- C6 counterexample: an empty captured span makes the floating-point
field raise (Python `float('')` is a `ValueError`), not yield an absent
value as the claim states for both numeric fields. -/
theorem c6_float_empty_raises :
    FloatField.process '.' [] = .error PErr.floatParse := rfl

/-- C6 (amended): an empty captured span yields an absent value (not
zero, not an error) for the integer field only; the floating-point field
raises a coercion error on an empty span, whatever its configuration. -/
theorem c6_empty_span_behaviour :
    (∀ tms : List Char, IntegerField.process tms [] = .ok none)
    ∧ (∀ dm : Char, FloatField.process dm [] = .error PErr.floatParse) := by
  exact ⟨fun _ => rfl, fun _ => rfl⟩

/-! ### Claim C5: the floating-point field -/

theorem dm_ne_thousandsFor (dm : Char) : dm ≠ FloatField.thousandsFor dm := by
  unfold FloatField.thousandsFor
  split_ifs with h
  · subst h; decide
  · exact h

/-- The uuid-sentinel pipeline of `FloatField.process` (tag the decimal
mark, strip the thousands marker, restore the tag as `.`) equals the
direct character-wise transform: drop thousands markers, send the
decimal mark to `.`. -/
theorem sentinel_pipeline (dm : Char) (w : List Char) :
    ((w.map (fun c => if c = dm then none else some c)).filter
        (fun t => t ≠ some (FloatField.thousandsFor dm))).map (fun t => t.getD '.')
      = (w.filter (fun c => c ≠ FloatField.thousandsFor dm)).map
          (fun c => if c = dm then '.' else c) := by
  simp only [ne_eq, decide_not]
  induction w with
  | nil => rfl
  | cons c w ih =>
    by_cases hdm : c = dm
    · subst hdm
      have hcn : ¬ (c = FloatField.thousandsFor c) := dm_ne_thousandsFor c
      simp [List.filter_cons, hcn, ih]
    · by_cases htm : c = FloatField.thousandsFor dm
      · have htd : ¬ (FloatField.thousandsFor dm = dm) := fun h => dm_ne_thousandsFor dm h.symm
        simp [List.filter_cons, hdm, htm, htd, ih]
      · simp [List.filter_cons, hdm, htm, ih]

/-- C5: on the scenario content `"Price: 1,234.56 USD"` a float field
with lower `"Price:"`, upper `"USD"` and decimal mark `.` extracts
exactly `1234.56`; for every captured span in which the decimal mark
occurs at most once the sentinel pipeline (substitute the mark by a
fresh sentinel, strip thousands markers, restore the sentinel as `.`)
amounts to the direct transform fed to `float(...)`; and a span with
more than one decimal mark raises the malformed-number error. -/
theorem c5_float_field_contract :
    (fieldCall false ("Price:".data) ("USD".data) false (FloatField.process '.') []
        ("Price: 1,234.56 USD".data)
      = .ok (.single (some ((123456 : ℚ) / 100))))
    ∧ (∀ (dm : Char) (v : List Char), v.count dm ≤ 1 →
        FloatField.process dm v
          = match pyFloat (((pyStrip v).filter (fun c => c ≠ FloatField.thousandsFor dm)).map
              (fun c => if c = dm then '.' else c)) with
            | some q => .ok q
            | none => .error PErr.floatParse)
    ∧ (∀ (dm : Char) (v : List Char), 1 < v.count dm →
        FloatField.process dm v = .error PErr.doubleDecimalMark) := by
  have scenario : fieldCall false ("Price:".data) ("USD".data) false (FloatField.process '.') []
      ("Price: 1,234.56 USD".data)
      = .ok (.single (some (((123456 : Int) : ℚ) * (10 : ℚ) ^ (-(2 : Int))))) := by rfl
  have qval : (((123456 : Int) : ℚ) * (10 : ℚ) ^ (-(2 : Int))) = (123456 : ℚ) / 100 := by
    norm_num [zpow_neg]
  refine ⟨by rw [scenario, qval], fun dm v h => ?_, fun dm v h => ?_⟩
  · have hlt : ¬ (1 < v.count dm) := Nat.not_lt.mpr h
    simp only [FloatField.process, if_neg hlt]
    rw [sentinel_pipeline dm (pyStrip v)]
  · simp [FloatField.process, h]

/-- Witness for C5 at concrete spans. -/
theorem c5_float_field_contract_witness :
    (FloatField.process '.' ("1,2.3".data)
      = match pyFloat (((pyStrip ("1,2.3".data)).filter
            (fun c => c ≠ FloatField.thousandsFor '.')).map
          (fun c => if c = '.' then '.' else c)) with
        | some q => .ok q
        | none => .error PErr.floatParse)
    ∧ FloatField.process '.' ("1.2.3".data) = .error PErr.doubleDecimalMark :=
  ⟨c5_float_field_contract.2.1 '.' ("1,2.3".data) (by decide),
   c5_float_field_contract.2.2 '.' ("1.2.3".data) (by decide)⟩

/-! ### Claim C7: nested-document fields propagate the parent config -/

/-- C7: every child Document that `ModelField.process` constructs — on
the literal re-parse path, the remote-fetch path and the forced-literal
path alike — receives the parent's request configuration unchanged; and
on the scenario content `"<a>http://x.test/detail</a>"` with lower
`"<a>"` and upper `"</a>"` the child is constructed with address
`http://x.test/detail` and the parent's full configuration. -/
theorem c7_child_inherits_request_config (cfg : ReqConfig) (purl : Option String)
    (burl : String) :
    (∀ (ign : Bool) (value : String) (c : ChildCall),
        ModelField.process cfg purl burl ign value = some c → c.cfg = cfg)
    ∧ fieldCall false ("<a>".data) ("</a>".data) false
        (fun b => (Except.ok (ModelField.process cfg purl burl false (String.mk b))
          : Except PErr (Option ChildCall))) []
        ("<a>http://x.test/detail</a>".data)
      = .ok (.single (some (some ⟨none, some "http://x.test/detail", cfg⟩))) := by
  constructor
  · intro ign value c h
    unfold ModelField.process at h
    split_ifs at h <;> simp_all <;> subst h <;> rfl
  · rfl

/-- Witness for C7: the propagation statement applied on the concrete
url path of the scenario. -/
theorem c7_child_inherits_request_config_witness :
    (ChildCall.mk none (some "http://x.test/detail")
        ⟨["http://proxy.test"], true, some 3, true, [("k", "v")], some "c", true⟩).cfg
      = ⟨["http://proxy.test"], true, some 3, true, [("k", "v")], some "c", true⟩ :=
  (c7_child_inherits_request_config
      ⟨["http://proxy.test"], true, some 3, true, [("k", "v")], some "c", true⟩
      none "http://parent.test").1 false "http://x.test/detail" _ rfl

/-! ### Claim C8: order independence of the resolution pass -/

/-- Two sorted-by-key association lists that are permutations of each
other with no duplicate keys are equal. -/
theorem sortedKeyUnique {beta : Type _} :
    ∀ {l₁ l₂ : List (String × beta)}, l₁.Perm l₂ →
      l₁.Sorted (fun a b => a.1 ≤ b.1) → l₂.Sorted (fun a b => a.1 ≤ b.1) →
      (l₁.map Prod.fst).Nodup → l₁ = l₂
  | [], l₂, hp, _, _, _ => (hp.symm.eq_nil).symm ▸ rfl
  | a :: t₁, [], hp, _, _, _ => by
      exact absurd hp.eq_nil (by simp)
  | a :: t₁, b :: t₂, hp, s₁, s₂, nd => by
      by_cases hab : a = b
      · subst hab
        have ht := hp.cons_inv
        have : t₁ = t₂ :=
          sortedKeyUnique ht s₁.of_cons s₂.of_cons (by simpa using nd.of_cons)
        rw [this]
      · exfalso
        have ha2 : a ∈ t₂ := by
          have := hp.mem_iff.mp (List.mem_cons_self a t₁)
          rcases List.mem_cons.mp this with h | h
          · exact absurd h hab
          · exact h
        have hb1 : b ∈ t₁ := by
          have := hp.symm.mem_iff.mp (List.mem_cons_self b t₂)
          rcases List.mem_cons.mp this with h | h
          · exact absurd h.symm hab
          · exact h
        have h1 : a.1 ≤ b.1 := List.rel_of_sorted_cons s₁ b hb1
        have h2 : b.1 ≤ a.1 := List.rel_of_sorted_cons s₂ a ha2
        have hkey : a.1 = b.1 := le_antisymm h1 h2
        have : a.1 ∉ t₁.map Prod.fst := by
          have := nd
          simp only [List.map_cons, List.nodup_cons] at this
          exact this.1
        exact this (hkey ▸ List.mem_map_of_mem Prod.fst hb1)

/-- C8: dependency resolution is order-independent — `dir(self)` sorts
the attribute names, so declaring the same named fields (no duplicate
names) in any permutation yields the same resolved value for every field
and the same success-or-failure outcome of `Model.__extract`. -/
theorem c8_resolution_order_independent {V : Type} (l₁ l₂ : List (String × RField V))
    (hperm : l₁.Perm l₂) (hnd : (l₁.map Prod.fst).Nodup) :
    modelExtract l₁ = modelExtract l₂ := by
  have hg : gatherFields l₁ = gatherFields l₂ := by
    apply sortedKeyUnique
    · exact (List.perm_insertionSort _ l₁).trans
        (hperm.trans (List.perm_insertionSort _ l₂).symm)
    · exact List.sorted_insertionSort _ l₁
    · exact List.sorted_insertionSort _ l₂
    · exact (((List.perm_insertionSort _ l₁).map Prod.fst).nodup_iff).mpr hnd
  unfold modelExtract
  rw [hg]

/-- Witness for C8: the two declaration orders of a dependent pair of
fields produce identical extraction results. -/
theorem c8_resolution_order_independent_witness :
    modelExtract [("a", (⟨[], fun _ => (1 : Nat)⟩ : RField Nat)),
                  ("b", ⟨["a"], fun e => (e "a").getD 0 + 1⟩)]
      = modelExtract [("b", (⟨["a"], fun e => (e "a").getD 0 + 1⟩ : RField Nat)),
                      ("a", ⟨[], fun _ => 1⟩)] :=
  c8_resolution_order_independent _ _ (List.Perm.swap _ _ _) (by decide)

/-! ### Claim C9: resource-field destination paths -/

theorem data_mk (l : List Char) : (String.mk l).data = l := rfl

theorem digitVal_digitChar : ∀ n < 10, digitVal (Nat.digitChar n) = n := by decide

theorem decVal_append_digit (xs : List Char) (c : Char) :
    decVal (xs ++ [c]) = 10 * decVal xs + digitVal c := by
  simp [decVal, List.foldl_append]

theorem natReprAux_val : ∀ (fuel n : Nat), n < 10 ^ fuel → decVal (natReprAux fuel n) = n
  | 0, n, h => by
      simp only [pow_zero, Nat.lt_one_iff] at h
      subst h; rfl
  | fuel + 1, n, h => by
      unfold natReprAux
      by_cases hn : n < 10
      · rw [if_pos hn]
        simpa [decVal] using digitVal_digitChar n hn
      · rw [if_neg hn]
        rw [decVal_append_digit]
        have hdiv : n / 10 < 10 ^ fuel := by
          rw [Nat.div_lt_iff_lt_mul (by norm_num)]
          calc n < 10 ^ (fuel + 1) := h
            _ = 10 ^ fuel * 10 := by ring
        rw [natReprAux_val fuel (n / 10) hdiv]
        rw [digitVal_digitChar (n % 10) (Nat.mod_lt n (by norm_num))]
        exact Nat.div_add_mod n 10

theorem natReprAux_inj {i j : Nat} (h : natReprAux (i + 1) i = natReprAux (j + 1) j) :
    i = j := by
  have hbound : ∀ n : Nat, n < 10 ^ (n + 1) := fun n =>
    lt_of_lt_of_le (Nat.lt_pow_self (by norm_num) n)
      (Nat.pow_le_pow_right (by norm_num) (Nat.le_succ n))
  have hi := natReprAux_val (i + 1) i (hbound i)
  have hj := natReprAux_val (j + 1) j (hbound j)
  rw [h] at hi
  omega

theorem mkCand_inj (bp s e : String) {i j : Nat}
    (h : FileField.mkCand bp s e i = FileField.mkCand bp s e j) : i = j := by
  have hd := congrArg String.data h
  simp only [FileField.mkCand, FileField.joinPath, natRepr, String.data_append,
    data_mk, List.append_assoc] at hd
  have h1 := List.append_cancel_left hd
  have h2 := List.append_cancel_left h1
  have h3 := List.append_cancel_left h2
  have h4 := List.append_cancel_left h3
  exact natReprAux_inj (List.append_cancel_right h4)

theorem existsFreeIndex (existing : List String) (mkc : Nat → String)
    (hinj : ∀ {i j : Nat}, mkc i = mkc j → i = j) (start : Nat) :
    ∃ j, start ≤ j ∧ j < start + existing.length + 1 ∧
      existing.contains (mkc j) = false := by
  by_contra hcon
  push_neg at hcon
  have hall : ∀ k, k < existing.length + 1 → mkc (start + k) ∈ existing := by
    intro k hk
    have h := hcon (start + k) (Nat.le_add_right _ _) (by omega)
    simp only [← ne_eq, Bool.ne_false_iff] at h
    simpa using h
  have hnodup : ((List.range (existing.length + 1)).map (fun k => mkc (start + k))).Nodup := by
    refine List.Nodup.map ?_ (List.nodup_range _)
    intro a b hab
    have := hinj hab
    omega
  have hsub : ((List.range (existing.length + 1)).map
      (fun k => mkc (start + k))).toFinset ⊆ existing.toFinset := by
    intro x hx
    rw [List.mem_toFinset] at hx
    obtain ⟨k, hk, rfl⟩ := List.mem_map.mp hx
    exact List.mem_toFinset.mpr (hall k (List.mem_range.mp hk))
  have h1 := List.toFinset_card_of_nodup hnodup
  have h2 := Finset.card_le_card hsub
  have h3 := List.toFinset_card_le existing
  simp only [List.length_map, List.length_range] at h1
  omega

theorem firstFree_not_mem (existing : List String) (mkc : Nat → String) :
    ∀ (fuel i : Nat), (∃ j, i ≤ j ∧ j < i + fuel ∧ existing.contains (mkc j) = false) →
      existing.contains (mkc (FileField.firstFree existing mkc fuel i)) = false
  | 0, i, h => by obtain ⟨j, h1, h2, _⟩ := h; omega
  | fuel + 1, i, h => by
      unfold FileField.firstFree
      by_cases hc : existing.contains (mkc i) = true
      · rw [if_pos hc]
        apply firstFree_not_mem existing mkc fuel (i + 1)
        obtain ⟨j, h1, h2, h3⟩ := h
        refine ⟨j, ?_, by omega, h3⟩
        rcases Nat.eq_or_lt_of_le h1 with rfl | hlt
        · rw [h3] at hc; exact absurd hc (by simp)
        · omega
      · rw [if_neg hc]
        simpa using hc

theorem firstFree_ge (existing : List String) (mkc : Nat → String) :
    ∀ (fuel i : Nat), i ≤ FileField.firstFree existing mkc fuel i
  | 0, i => Nat.le_refl i
  | fuel + 1, i => by
      unfold FileField.firstFree
      by_cases hc : existing.contains (mkc i) = true
      · rw [if_pos hc]
        exact le_trans (Nat.le_succ i) (firstFree_ge existing mkc fuel (i + 1))
      · rw [if_neg hc]

/-- C9: for a resource-field download whose response metadata carries no
filename, the destination is derived from the last path segment of the
(stripped, scheme-fixed) address — it is that segment's stem and
extension, possibly with an incrementing numeric suffix inserted — and
whatever the state of the destination directory, the chosen path never
collides with an existing file. -/
theorem c9_download_destination (existing : List String) (basePath value : String) :
    FileField.destPath none value existing basePath ∉ existing
    ∧ (FileField.destPath none value existing basePath
         = FileField.joinPath basePath
            (String.mk (FileField.splitext (FileField.lastSegment
                (if (String.mk (pyStrip value.data)).data.take 2 = ['/', '/']
                 then ("http:" ++ String.mk (pyStrip value.data)).data
                 else (String.mk (pyStrip value.data)).data))).1
              ++ String.mk (FileField.splitext (FileField.lastSegment
                (if (String.mk (pyStrip value.data)).data.take 2 = ['/', '/']
                 then ("http:" ++ String.mk (pyStrip value.data)).data
                 else (String.mk (pyStrip value.data)).data))).2)
       ∨ ∃ i, 1 ≤ i ∧ FileField.destPath none value existing basePath
         = FileField.mkCand basePath
            (String.mk (FileField.splitext (FileField.lastSegment
                (if (String.mk (pyStrip value.data)).data.take 2 = ['/', '/']
                 then ("http:" ++ String.mk (pyStrip value.data)).data
                 else (String.mk (pyStrip value.data)).data))).1)
            (String.mk (FileField.splitext (FileField.lastSegment
                (if (String.mk (pyStrip value.data)).data.take 2 = ['/', '/']
                 then ("http:" ++ String.mk (pyStrip value.data)).data
                 else (String.mk (pyStrip value.data)).data))).2) i) := by
  unfold FileField.destPath FileField.get_file_path
  simp only [Option.getD]
  set v0 := String.mk (pyStrip value.data) with hv0
  set v := if v0.data.take 2 = ['/', '/'] then "http:" ++ v0 else v0 with hv
  set st := FileField.splitext (FileField.lastSegment v.data) with hst
  set stem := String.mk st.1 with hstem
  set ext := String.mk st.2 with hext
  set cand := FileField.joinPath basePath (stem ++ ext) with hcand
  have hveq : (if v0.data.take 2 = ['/', '/'] then ("http:" ++ v0).data else v0.data) = v.data := by
    by_cases h2 : v0.data.take 2 = ['/', '/'] <;> simp [hv, h2]
  by_cases hc : existing.contains cand = true
  · rw [if_pos hc]
    constructor
    · have hfree := existsFreeIndex existing (FileField.mkCand basePath stem ext)
        (fun h => mkCand_inj basePath stem ext h) 1
      obtain ⟨j, hj1, hj2, hj3⟩ := hfree
      have hnm := firstFree_not_mem existing (FileField.mkCand basePath stem ext)
        (existing.length + 1) 1 ⟨j, hj1, by omega, hj3⟩
      simp only [Bool.eq_false_iff, ne_eq, List.contains_eq_any_beq] at hnm
      intro hmem
      exact hnm (by simpa using hmem)
    · right
      exact ⟨_, firstFree_ge existing _ (existing.length + 1) 1, by rw [hveq]⟩
  · rw [if_neg hc]
    constructor
    · intro hmem
      exact hc (by simpa using hmem)
    · left
      rw [hveq]

/-! ### Claim C1: cycles always stall the resolver -/

theorem assocUnique {beta : Type _} :
    ∀ {l : List (String × beta)} {a : String} {x y : beta},
      (l.map Prod.fst).Nodup → (a, x) ∈ l → (a, y) ∈ l → x = y
  | [], a, x, y, _, hx, _ => absurd hx (by simp)
  | p :: t, a, x, y, nd, hx, hy => by
      simp only [List.map_cons, List.nodup_cons] at nd
      rcases List.mem_cons.mp hx with h1 | h1 <;> rcases List.mem_cons.mp hy with h2 | h2
      · rw [← h1] at h2; exact (Prod.mk.injEq _ _ _ _).mp h2.symm |>.2
      · exfalso
        exact nd.1 (h1 ▸ (List.mem_map_of_mem Prod.fst h2 : (a, y).1 ∈ t.map Prod.fst))
      · exfalso
        exact nd.1 (h2 ▸ (List.mem_map_of_mem Prod.fst h1 : (a, x).1 ∈ t.map Prod.fst))
      · exact assocUnique nd.2 h1 h2

theorem scanPass_length_le {V : Type} :
    ∀ (rem : List (String × RField V × List String)) (ok : List String)
      (env : List (String × V)), (scanPass rem ok env).1.length ≤ rem.length
  | [], ok, env => by simp [scanPass]
  | (n, f, pend) :: rest, ok, env => by
      simp only [scanPass]
      by_cases h : (pend.filter (fun d => !(ok.contains d))).isEmpty
      · rw [if_pos h]
        exact le_trans (scanPass_length_le rest _ _) (Nat.le_succ _)
      · rw [if_neg h]
        simpa using scanPass_length_le rest ok env

theorem scanPass_names {V : Type} :
    ∀ (rem : List (String × RField V × List String)) (ok : List String)
      (env : List (String × V)),
      ∀ e ∈ (scanPass rem ok env).1, ∃ e' ∈ rem, e.1 = e'.1
  | [], ok, env => by simp [scanPass]
  | (n, f, pend) :: rest, ok, env => by
      simp only [scanPass]
      by_cases h : (pend.filter (fun d => !(ok.contains d))).isEmpty
      · rw [if_pos h]
        intro e he
        obtain ⟨e', he', heq⟩ := scanPass_names rest (ok ++ [n]) _ e he
        exact ⟨e', List.mem_cons_of_mem _ he', heq⟩
      · rw [if_neg h]
        intro e he
        rcases List.mem_cons.mp he with h1 | h1
        · exact ⟨(n, f, pend), List.mem_cons_self _ _, by rw [h1]⟩
        · obtain ⟨e', he', heq⟩ := scanPass_names rest ok env e h1
          exact ⟨e', List.mem_cons_of_mem _ he', heq⟩

/-- The key invariant of one scan: if every member of a blocked set `C`
is unresolved, and every queued entry named in `C` still has a pending
dependency inside `C`, the scan resolves no member of `C`: all of them
stay queued, still blocked on `C`. -/
theorem scanPass_inv {V : Type} (C : List String) :
    ∀ (rem : List (String × RField V × List String)) (ok : List String)
      (env : List (String × V)),
      (∀ f ∈ C, f ∉ ok) →
      (∀ e ∈ rem, e.1 ∈ C → ∃ d, d ∈ e.2.2 ∧ d ∈ C) →
      (∀ f ∈ C, f ∉ (scanPass rem ok env).2.1) ∧
      (∀ e ∈ (scanPass rem ok env).1, e.1 ∈ C → ∃ d, d ∈ e.2.2 ∧ d ∈ C) ∧
      (∀ f ∈ C, (∃ e ∈ rem, e.1 = f) → ∃ e ∈ (scanPass rem ok env).1, e.1 = f)
  | [], ok, env, hok, hrem => by
      refine ⟨by simpa [scanPass] using hok, by simp [scanPass], ?_⟩
      intro f _ h
      obtain ⟨e, he, _⟩ := h
      exact absurd he (by simp)
  | (n, f, pend) :: rest, ok, env, hok, hrem => by
      simp only [scanPass]
      by_cases h : (pend.filter (fun d => !(ok.contains d))).isEmpty
      · -- the head resolves: it cannot be a member of C
        have hnC : n ∉ C := by
          intro hnC
          obtain ⟨d, hd1, hd2⟩ := hrem (n, f, pend) (List.mem_cons_self _ _) hnC
          have hdf : d ∈ pend.filter (fun d => !(ok.contains d)) := by
            rw [List.mem_filter]
            refine ⟨hd1, ?_⟩
            have := hok d hd2
            simpa using this
          rw [List.isEmpty_iff] at h
          rw [h] at hdf
          exact absurd hdf (by simp)
        rw [if_pos h]
        have hok' : ∀ g ∈ C, g ∉ ok ++ [n] := by
          intro g hg hmem
          rcases List.mem_append.mp hmem with h1 | h1
          · exact hok g hg h1
          · simp only [List.mem_singleton] at h1
            exact hnC (h1 ▸ hg)
        have hrem' : ∀ e ∈ rest, e.1 ∈ C → ∃ d, d ∈ e.2.2 ∧ d ∈ C := by
          intro e he
          exact hrem e (List.mem_cons_of_mem _ he)
        obtain ⟨i1, i2, i3⟩ := scanPass_inv C rest (ok ++ [n])
          (env ++ [(n, f.run (lookupEnv env))]) hok' hrem'
        refine ⟨i1, i2, ?_⟩
        intro g hg hex
        obtain ⟨e, he, heq⟩ := hex
        rcases List.mem_cons.mp he with h1 | h1
        · exact absurd (heq ▸ hg : e.1 ∈ C) (h1 ▸ hnC)
        · exact i3 g hg ⟨e, h1, heq⟩
      · rw [if_neg h]
        have hrem' : ∀ e ∈ rest, e.1 ∈ C → ∃ d, d ∈ e.2.2 ∧ d ∈ C := by
          intro e he
          exact hrem e (List.mem_cons_of_mem _ he)
        obtain ⟨i1, i2, i3⟩ := scanPass_inv C rest ok env hok hrem'
        refine ⟨i1, ?_, ?_⟩
        · intro e he heC
          rcases List.mem_cons.mp he with h1 | h1
          · subst h1
            obtain ⟨d, hd1, hd2⟩ := hrem (n, f, pend) (List.mem_cons_self _ _) heC
            refine ⟨d, ?_, hd2⟩
            rw [List.mem_filter]
            refine ⟨hd1, ?_⟩
            have := hok d hd2
            simpa using this
          · exact i2 e h1 heC
        · intro g hg hex
          obtain ⟨e, he, heq⟩ := hex
          rcases List.mem_cons.mp he with h1 | h1
          · exact ⟨(n, f, pend.filter (fun d => !(ok.contains d))),
              List.mem_cons_self _ _, by rw [h1] at heq; exact heq⟩
          · obtain ⟨e', he', heq'⟩ := i3 g hg ⟨e, h1, heq⟩
            exact ⟨e', List.mem_cons_of_mem _ he', heq'⟩

/-- The outer loop can never drain a queue that carries a blocked set:
it must eventually make an unproductive scan and raise the cycle error,
whose field list contains every member of the blocked set and only
declared names. -/
theorem extractGo_stalls {V : Type} (C N : List String) (hC : C ≠ []) :
    ∀ (fuel : Nat) (rem : List (String × RField V × List String)) (ok : List String)
      (env : List (String × V)),
      (∀ f ∈ C, f ∉ ok) →
      (∀ e ∈ rem, e.1 ∈ C → ∃ d, d ∈ e.2.2 ∧ d ∈ C) →
      (∀ f ∈ C, ∃ e ∈ rem, e.1 = f) →
      (∀ e ∈ rem, e.1 ∈ N) →
      ∃ blocked, extractGo fuel rem ok env = .error blocked
        ∧ (∀ f ∈ C, f ∈ blocked) ∧ (∀ f ∈ blocked, f ∈ N)
  | 0, rem, ok, env, _, _, hrep, hnames => by
      obtain ⟨f0, hf0⟩ := List.exists_mem_of_ne_nil C hC
      obtain ⟨e0, he0, _⟩ := hrep f0 hf0
      have hne : ¬ rem.isEmpty = true := by
        cases rem
        · exact absurd he0 (by simp)
        · simp
      refine ⟨rem.map (fun e => e.1), by simp [extractGo, hne], ?_, ?_⟩
      · intro f hf
        obtain ⟨e, he, heq⟩ := hrep f hf
        exact List.mem_map.mpr ⟨e, he, heq⟩
      · intro f hf
        obtain ⟨e, he, heq⟩ := List.mem_map.mp hf
        exact heq ▸ hnames e he
  | fuel + 1, rem, ok, env, hok, hrem, hrep, hnames => by
      match rem, hrem, hrep, hnames with
      | [], _, hrep, _ =>
          obtain ⟨f0, hf0⟩ := List.exists_mem_of_ne_nil C hC
          obtain ⟨e0, he0, _⟩ := hrep f0 hf0
          exact absurd he0 (by simp)
      | e1 :: rest, hrem, hrep, hnames =>
          obtain ⟨i1, i2, i3⟩ := scanPass_inv C (e1 :: rest) ok env hok hrem
          have hnames' : ∀ e ∈ (scanPass (e1 :: rest) ok env).1, e.1 ∈ N := by
            intro e he
            obtain ⟨e', he', heq⟩ := scanPass_names (e1 :: rest) ok env e he
            exact heq ▸ hnames e' he'
          by_cases hlen : (scanPass (e1 :: rest) ok env).1.length = (e1 :: rest).length
          · refine ⟨(scanPass (e1 :: rest) ok env).1.map (fun e => e.1),
              by simp [extractGo, hlen], ?_, ?_⟩
            · intro f hf
              obtain ⟨e, he, heq⟩ := i3 f hf (hrep f hf)
              exact List.mem_map.mpr ⟨e, he, heq⟩
            · intro f hf
              obtain ⟨e, he, heq⟩ := List.mem_map.mp hf
              exact heq ▸ hnames' e he
          · have hrep' : ∀ f ∈ C, ∃ e ∈ (scanPass (e1 :: rest) ok env).1, e.1 = f :=
              fun f hf => i3 f hf (hrep f hf)
            obtain ⟨blocked, hb1, hb2, hb3⟩ := extractGo_stalls C N hC fuel
              (scanPass (e1 :: rest) ok env).1 (scanPass (e1 :: rest) ok env).2.1
              (scanPass (e1 :: rest) ok env).2.2 i1 i2 hrep' hnames'
            refine ⟨blocked, ?_, hb2, hb3⟩
            simp only [extractGo, hlen, if_false]
            exact hb1

/-- C1: whenever the declared fields of a Document type (no duplicate
names) contain a dependency cycle of length at least 2, the resolution
pass of `Model.__extract` raises a cycle failure whose field list is the
set still remaining after the first unproductive full scan: it contains
every field of the cycle, names only declared fields, and no resolved
Document is ever exposed to the caller. -/
theorem c1_cycle_always_raises {V : Type} (decls : List (String × RField V))
    (cyc : List String)
    (hkeys : (decls.map Prod.fst).Nodup)
    (hlen : 2 ≤ cyc.length)
    (hcyc : ∀ i, i < cyc.length → ∃ rf : RField V,
        (cyc.getD i "", rf) ∈ decls ∧ cyc.getD ((i + 1) % cyc.length) "" ∈ rf.deps) :
    ∃ blocked, modelExtract decls = .error blocked
      ∧ (∀ f ∈ cyc, f ∈ blocked)
      ∧ (∀ f ∈ blocked, f ∈ decls.map Prod.fst)
      ∧ ∀ r, modelExtract decls ≠ .ok r := by
  have hpos : 0 < cyc.length := by omega
  have hCne : cyc ≠ [] := List.ne_nil_of_length_pos hpos
  have hsortmem : ∀ p : String × RField V, p ∈ gatherFields decls ↔ p ∈ decls :=
    fun p => (List.perm_insertionSort _ decls).mem_iff
  -- initial queue
  have hmain := extractGo_stalls (V := V) cyc (decls.map Prod.fst) hCne
    ((gatherFields decls).map (fun p => (p.1, p.2, p.2.deps))).length
    ((gatherFields decls).map (fun p => (p.1, p.2, p.2.deps))) [] []
    (by intro f _ h; exact absurd h (by simp))
    (by
      intro e he heC
      obtain ⟨p, hp, rfl⟩ := List.mem_map.mp he
      obtain ⟨i, hi, hieq⟩ := List.mem_iff_getElem.mp heC
      have hgetd : cyc.getD i "" = p.1 := by
        rw [List.getD_eq_getElem cyc "" hi]; exact hieq
      obtain ⟨rf, hrf1, hrf2⟩ := hcyc i hi
      rw [hgetd] at hrf1
      have hp' : (p.1, p.2) ∈ decls := by
        rw [Prod.mk.eta]; exact (hsortmem p).mp hp
      have hpeq : p.2 = rf := assocUnique hkeys hp' hrf1
      refine ⟨cyc.getD ((i + 1) % cyc.length) "", ?_, ?_⟩
      · show _ ∈ p.2.deps
        rw [hpeq]; exact hrf2
      · rw [List.getD_eq_getElem cyc "" (Nat.mod_lt _ hpos)]
        exact List.getElem_mem _)
    (by
      intro f hf
      obtain ⟨i, hi, hieq⟩ := List.mem_iff_getElem.mp hf
      obtain ⟨rf, hrf1, _⟩ := hcyc i hi
      have hgetd : cyc.getD i "" = f := by
        rw [List.getD_eq_getElem cyc "" hi]; exact hieq
      rw [hgetd] at hrf1
      refine ⟨(f, rf, rf.deps), ?_, rfl⟩
      exact List.mem_map.mpr ⟨(f, rf), (hsortmem (f, rf)).mpr hrf1, rfl⟩)
    (by
      intro e he
      obtain ⟨p, hp, rfl⟩ := List.mem_map.mp he
      exact List.mem_map.mpr ⟨p, (hsortmem p).mp hp, rfl⟩)
  obtain ⟨blocked, hb1, hb2, hb3⟩ := hmain
  have hext : modelExtract decls = .error blocked := hb1
  refine ⟨blocked, hext, hb2, hb3, ?_⟩
  intro r hr
  rw [hext] at hr
  exact Except.noConfusion hr

/-- Witness for C1: the two-field cycle `A ↔ B` of the spec's scenario
raises a cycle failure naming both fields. -/
theorem c1_cycle_always_raises_witness :
    ∃ blocked,
      modelExtract [("a", (⟨["b"], fun _ => (0 : Nat)⟩ : RField Nat)),
                    ("b", ⟨["a"], fun _ => 0⟩)] = .error blocked
      ∧ (∀ f ∈ (["a", "b"] : List String), f ∈ blocked)
      ∧ (∀ f ∈ blocked,
          f ∈ ([("a", (⟨["b"], fun _ => (0 : Nat)⟩ : RField Nat)),
                ("b", ⟨["a"], fun _ => 0⟩)].map Prod.fst))
      ∧ ∀ r, modelExtract [("a", (⟨["b"], fun _ => (0 : Nat)⟩ : RField Nat)),
                           ("b", ⟨["a"], fun _ => 0⟩)] ≠ .ok r :=
  c1_cycle_always_raises _ ["a", "b"] (by decide) (by decide)
    (by
      intro i hi
      match i, hi with
      | 0, _ =>
          exact ⟨⟨["b"], fun _ => 0⟩, List.mem_cons_self _ _, by decide⟩
      | 1, _ =>
          exact ⟨⟨["a"], fun _ => 0⟩,
            List.mem_cons_of_mem _ (List.mem_cons_self _ _), by decide⟩)

/-! ### Claim C3: the base extraction contract -/

theorem okBody_cons (dotAll : Bool) (c : Char) (l : List Char)
    (hc : dotAll = true ∨ c ≠ '\n') (hl : okBody dotAll l = true) :
    okBody dotAll (c :: l) = true := by
  cases dotAll
  · rcases hc with h | h
    · exact absurd h (by simp)
    · simpa [okBody, h] using hl
  · simp [okBody]

theorem okBody_of_cons (dotAll : Bool) (c : Char) (l : List Char)
    (h : okBody dotAll (c :: l) = true) : okBody dotAll l = true := by
  cases dotAll
  · simp only [okBody, Bool.false_or, List.all_cons, Bool.and_eq_true] at h ⊢
    exact h.2
  · simp [okBody]

theorem bodySearch_some (U : List Char) (dotAll : Bool) :
    ∀ (t : List Char) (b : Nat), bodySearch U dotAll t = some b →
      U.isPrefixOf (t.drop b) = true ∧ okBody dotAll (t.take b) = true ∧ b ≤ t.length
  | [], b, h => by
      unfold bodySearch at h
      by_cases hp : U.isPrefixOf ([] : List Char) = true
      · rw [if_pos hp] at h
        obtain rfl : 0 = b := Option.some.inj h
        exact ⟨hp, by simp [okBody], Nat.le_refl 0⟩
      · rw [if_neg hp] at h
        exact absurd h (by simp)
  | c :: t, b, h => by
      unfold bodySearch at h
      by_cases hp : U.isPrefixOf (c :: t) = true
      · rw [if_pos hp] at h
        obtain rfl : 0 = b := Option.some.inj h
        exact ⟨hp, by simp [okBody], Nat.zero_le _⟩
      · rw [if_neg hp] at h
        by_cases hnl : (!dotAll && c = '\n') = true
        · rw [if_pos hnl] at h
          exact absurd h (by simp)
        · rw [if_neg hnl] at h
          obtain ⟨b0, hb0, rfl⟩ := Option.map_eq_some'.mp h
          obtain ⟨ih1, ih2, ih3⟩ := bodySearch_some U dotAll t b0 hb0
          refine ⟨ih1, ?_, by simpa using ih3⟩
          refine okBody_cons dotAll c _ ?_ ih2
          cases dotAll
          · right
            intro hc
            exact hnl (by simp [hc])
          · left; rfl
  termination_by t => t.length

theorem bodySearch_minimal (U : List Char) (dotAll : Bool) :
    ∀ (t : List Char) (b : Nat), bodySearch U dotAll t = some b →
      ∀ b' < b, ¬(U.isPrefixOf (t.drop b') = true ∧ okBody dotAll (t.take b') = true)
  | [], b, h => by
      unfold bodySearch at h
      by_cases hp : U.isPrefixOf ([] : List Char) = true
      · rw [if_pos hp] at h
        obtain rfl : 0 = b := Option.some.inj h
        omega
      · rw [if_neg hp] at h
        exact absurd h (by simp)
  | c :: t, b, h => by
      unfold bodySearch at h
      by_cases hp : U.isPrefixOf (c :: t) = true
      · rw [if_pos hp] at h
        obtain rfl : 0 = b := Option.some.inj h
        omega
      · rw [if_neg hp] at h
        by_cases hnl : (!dotAll && c = '\n') = true
        · rw [if_pos hnl] at h
          exact absurd h (by simp)
        · rw [if_neg hnl] at h
          obtain ⟨b0, hb0, rfl⟩ := Option.map_eq_some'.mp h
          intro b' hb' hval
          match b', hval with
          | 0, hval => exact hp hval.1
          | b'' + 1, hval =>
              refine bodySearch_minimal U dotAll t b0 hb0 b'' (by omega) ?_
              exact ⟨hval.1, okBody_of_cons dotAll c _ hval.2⟩
  termination_by t => t.length

theorem bodySearch_none (U : List Char) (dotAll : Bool) :
    ∀ (t : List Char), bodySearch U dotAll t = none →
      ∀ b, ¬(U.isPrefixOf (t.drop b) = true ∧ okBody dotAll (t.take b) = true ∧ b ≤ t.length)
  | [], h => by
      unfold bodySearch at h
      by_cases hp : U.isPrefixOf ([] : List Char) = true
      · rw [if_pos hp] at h; exact absurd h (by simp)
      · rw [if_neg hp] at h
        intro b hval
        have hb0 : b = 0 := by simpa using hval.2.2
        subst hb0
        exact hp hval.1
  | c :: t, h => by
      unfold bodySearch at h
      by_cases hp : U.isPrefixOf (c :: t) = true
      · rw [if_pos hp] at h; exact absurd h (by simp)
      · rw [if_neg hp] at h
        by_cases hnl : (!dotAll && c = '\n') = true
        · rw [if_pos hnl] at h
          intro b hval
          match b, hval with
          | 0, hval => exact hp hval.1
          | b'' + 1, hval =>
              have hda : dotAll = false := by
                cases dotAll
                · rfl
                · simp at hnl
              have hcn : c = '\n' := by
                rw [hda] at hnl
                simpa using hnl
              have := hval.2.1
              rw [hda, hcn] at this
              simp [okBody] at this
        · rw [if_neg hnl] at h
          have hrec : bodySearch U dotAll t = none := by
            rcases hx : bodySearch U dotAll t with _ | b0
            · rfl
            · rw [hx] at h; exact absurd h (by simp)
          intro b hval
          match b, hval with
          | 0, hval => exact hp hval.1
          | b'' + 1, hval =>
              refine bodySearch_none U dotAll t hrec b'' ?_
              exact ⟨hval.1, okBody_of_cons dotAll c _ hval.2.1, by
                have := hval.2.2; simpa using this⟩
  termination_by t => t.length

theorem validMatchAt_le (L U : List Char) (dotAll : Bool) (s : List Char) {p b : Nat}
    (h : ValidMatchAt L U dotAll s p b) : p ≤ s.length := by
  have := h.1
  omega

theorem matchAt_some_valid (L U : List Char) (dotAll : Bool) (s : List Char) {p b : Nat}
    (hp : p ≤ s.length) (h : matchAt L U dotAll s p = some b) :
    ValidMatchAt L U dotAll s p b ∧ ∀ b' < b, ¬ ValidMatchAt L U dotAll s p b' := by
  unfold matchAt at h
  by_cases hL : L.isPrefixOf (s.drop p) = true
  · rw [if_pos hL] at h
    have hLlen : p + L.length ≤ s.length := by
      have hpre := List.isPrefixOf_iff_prefix.mp hL
      have := hpre.length_le
      rw [List.length_drop] at this
      omega
    obtain ⟨h1, h2, h3⟩ := bodySearch_some U dotAll (s.drop (p + L.length)) b h
    rw [List.drop_drop] at h1
    rw [List.length_drop] at h3
    constructor
    · exact ⟨by omega, hL, h1, h2⟩
    · intro b' hb' hval
      refine bodySearch_minimal U dotAll (s.drop (p + L.length)) b h b' hb' ?_
      constructor
      · rw [List.drop_drop]
        exact hval.2.2.1
      · exact hval.2.2.2
  · rw [if_neg hL] at h
    exact absurd h (by simp)

theorem matchAt_none_valid (L U : List Char) (dotAll : Bool) (s : List Char) {p : Nat}
    (h : matchAt L U dotAll s p = none) : ∀ b, ¬ ValidMatchAt L U dotAll s p b := by
  intro b hval
  unfold matchAt at h
  by_cases hL : L.isPrefixOf (s.drop p) = true
  · rw [if_pos hL] at h
    refine bodySearch_none U dotAll (s.drop (p + L.length)) h b ?_
    refine ⟨?_, hval.2.2.2, ?_⟩
    · rw [List.drop_drop]
      exact hval.2.2.1
    · rw [List.length_drop]
      have := hval.1
      omega
  · exact hL hval.2.1

theorem fmf_none (L U : List Char) (dotAll : Bool) (s : List Char) :
    ∀ (fuel i : Nat), s.length + 1 - i ≤ fuel →
      firstMatchFuel L U dotAll s fuel i = none →
      ∀ p b, i ≤ p → ¬ ValidMatchAt L U dotAll s p b
  | 0, i, hfuel, _ => by
      intro p b hip hval
      have := hval.1
      omega
  | fuel + 1, i, hfuel, h => by
      unfold firstMatchFuel at h
      by_cases hi : i ≤ s.length
      · rw [if_pos hi] at h
        rcases hm : matchAt L U dotAll s i with _ | b0
        · rw [hm] at h
          intro p b hip hval
          rcases Nat.eq_or_lt_of_le hip with rfl | hlt
          · exact matchAt_none_valid L U dotAll s hm b hval
          · exact fmf_none L U dotAll s fuel (i + 1) (by omega) h p b hlt hval
        · rw [hm] at h
          exact absurd h (by simp)
      · rw [if_neg hi] at h
        intro p b hip hval
        have := hval.1
        omega

theorem fmf_some (L U : List Char) (dotAll : Bool) (s : List Char) :
    ∀ (fuel i p b : Nat), s.length + 1 - i ≤ fuel →
      firstMatchFuel L U dotAll s fuel i = some (p, b) →
      i ≤ p ∧ p ≤ s.length ∧ matchAt L U dotAll s p = some b ∧
        ∀ q b', i ≤ q → q < p → ¬ ValidMatchAt L U dotAll s q b'
  | 0, i, p, b, hfuel, h => absurd h (by simp [firstMatchFuel])
  | fuel + 1, i, p, b, hfuel, h => by
      unfold firstMatchFuel at h
      by_cases hi : i ≤ s.length
      · rw [if_pos hi] at h
        rcases hm : matchAt L U dotAll s i with _ | b0
        · rw [hm] at h
          obtain ⟨h1, h2, h3, h4⟩ :=
            fmf_some L U dotAll s fuel (i + 1) p b (by omega) h
          refine ⟨by omega, h2, h3, ?_⟩
          intro q b' hiq hqp hval
          rcases Nat.eq_or_lt_of_le hiq with rfl | hlt
          · exact matchAt_none_valid L U dotAll s hm b' hval
          · exact h4 q b' hlt hqp hval
        · rw [hm] at h
          obtain ⟨rfl, rfl⟩ : i = p ∧ b0 = b := by
            have := Option.some.inj h
            exact ⟨congrArg Prod.fst this, congrArg Prod.snd this⟩
          refine ⟨Nat.le_refl _, hi, hm, ?_⟩
          intro q b' hiq hqp
          omega
      · rw [if_neg hi] at h
        exact absurd h (by simp)

theorem findAllFuel_chain (L U : List Char) (dotAll : Bool) (s : List Char) :
    ∀ (fuel i : Nat), s.length + 2 - i ≤ fuel →
      MatchChain L U dotAll s i (findAllFuel L U dotAll s fuel i)
  | 0, i, hfuel => by
      refine MatchChain.nil i ?_
      intro p b hip hval
      have := hval.1
      omega
  | fuel + 1, i, hfuel => by
      unfold findAllFuel
      rcases hfm : firstMatchFrom L U dotAll s i with _ | ⟨p, b⟩
      · refine MatchChain.nil i ?_
        exact fmf_none L U dotAll s (s.length + 1 - i) i (Nat.le_refl _) hfm
      · obtain ⟨h1, h2, h3, h4⟩ :=
          fmf_some L U dotAll s (s.length + 1 - i) i p b (Nat.le_refl _) hfm
        obtain ⟨hv, hshort⟩ := matchAt_some_valid L U dotAll s h2 h3
        refine MatchChain.cons i p b _ h1 hv hshort h4 ?_
        refine findAllFuel_chain L U dotAll s fuel (nextScanPos L U p b) ?_
        have : p + 1 ≤ nextScanPos L U p b := le_max_right _ _
        omega

/-- C3: contract of the base extraction step.  The span list of
`re.findall` on `L(.*?)U` is a `MatchChain`: in document order, each span
is a valid match whose body is the shortest one at its start (non-greedy
capture), no earlier match was skipped, and each span starts at or after
the end of the previous one (non-overlapping) — and it is empty exactly
when no match exists.  `Field.__call__` returns all captured bodies when
`as_list` is set (the empty list when there is no match), else just the
first body (`None` when there is no match). -/
theorem c3_base_extraction_contract (L U : List Char) (dotAll : Bool) (s : List Char) :
    MatchChain L U dotAll s 0 (findAllSpans L U dotAll s)
    ∧ findAllBodies L U dotAll s = (findAllSpans L U dotAll s).map (bodyAt L s)
    ∧ fieldCall true L U dotAll (fun e => (Except.ok e : Except PErr (List Char))) [] s
        = .ok (.many (findAllBodies L U dotAll s))
    ∧ fieldCall false L U dotAll (fun e => (Except.ok e : Except PErr (List Char))) [] s
        = .ok (.single (findAllBodies L U dotAll s).head?) :=
  ⟨findAllFuel_chain L U dotAll s (s.length + 2) 0 (by omega), rfl,
   fieldCall_raw_many L U dotAll s, fieldCall_raw_single L U dotAll s⟩
